import Mathlib

/-!
Verification of the concurrent proof-of-work miner `mine.c`.

The development shallowly embeds the program:
* pure helper functions (`get_difficulty`, the nonce-batch fill loop,
  the string concatenation passed to the digest, the leading-bits test)
  are translated directly from the C source;
* the digest (`sha1sum`, included from a file outside the embedded
  sources) is treated as an opaque pure function, as the design document
  prescribes;
* the concurrent behaviour of the generator (main) and the worker
  threads is an interleaving small-step semantics over an explicit
  system state; condition-variable waits are modelled as releasing the
  lock and re-contending (POSIX permits spurious wake-ups, so every
  schedule of this model is a behaviour the program can exhibit, and the
  loops of the program re-check their conditions after waking).
Machine integers are modelled as `Nat` with explicit reduction
modulo `2 ^ 64` or `2 ^ 32` where the C types can overflow.
-/

/-- `#define NONCES_PER_TASK 120` from the source. -/
def NONCES_PER_TASK : Nat := 120

/-- `UINT64_MAX`, the bound used by the generator loop. -/
def UINT64_MAX : Nat := 2 ^ 64 - 1

/-- Translation of `get_difficulty` (mine.c lines 190-200): starting from
`mask = 0`, for `i` from `0` while `i < 32 - diff`, or in `1 << i`
(converted to `uint32_t`, hence the reduction modulo `2 ^ 32`).
The argument is an `Int` because the C parameter has type `int`. -/
def get_difficulty (diff : Int) : Nat :=
  (List.range (32 - diff).toNat).foldl (fun mask i => mask ||| (2 ^ i % 2 ^ 32)) 0

/-- Translation of the batch-fill loop of `main` (mine.c lines 105-115):
`nonces[i] = current_nonce++` for `i = 0 .. n-1`, the increment wrapping
at `2 ^ 64` because `current_nonce` has type `uint64_t`.  Returns the
filled batch together with the final value of `current_nonce`. -/
def fill_nonces : Nat → Nat → List Nat × Nat
  | 0, cur => ([], cur)
  | n + 1, cur =>
    let p := fill_nonces n ((cur + 1) % 2 ^ 64)
    (cur :: p.1, p.2)

/-- The `current_nonce` value held by the generator after `k` batches
have been generated (it starts at `0`). -/
def gen_state : Nat → Nat
  | 0 => 0
  | k + 1 => (fill_nonces NONCES_PER_TASK (gen_state k)).2

/-- The `k`-th batch of nonces the generator creates and publishes
(batches are created, and published, in this order by the single
generator thread). -/
def nthBatch (k : Nat) : List Nat := (fill_nonces NONCES_PER_TASK (gen_state k)).1

/-- Modelled from the spec: `sprintf(buf, "%llu", c)` (the C library
renders an unsigned integer as its base-10 digits, least significant
digit produced by repeated division).  Fuel-based so that it is
structural; `decimal` below supplies enough fuel. -/
def decimalAux : Nat → Nat → List Char
  | 0, _ => []
  | fuel + 1, n =>
    if n = 0 then [] else Char.ofNat (48 + n % 10) :: decimalAux fuel (n / 10)

/-- Modelled from the spec: the decimal string `sprintf` with format
`%llu` writes into `buf` for the value `c`. -/
def decimal (c : Nat) : List Char :=
  if c = 0 then ['0'] else (decimalAux c c).reverse

/-- Translation of the construction of `tmp_str` (mine.c lines 243-254):
`strcpy(tmp_str, bitcoin_block_data); strcat(tmp_str, buf)` where `buf`
holds the decimal rendering of the nonce. -/
def tmp_str (bitcoin_block_data : List Char) (c : Nat) : List Char :=
  bitcoin_block_data ++ decimal c

/-- Translation of the assembly of `hash_front` (mine.c lines 265-269):
the accumulator starts at `0` and successively ors in the four leading
digest bytes shifted by 24, 16, 8, 0; the result is a `uint32_t`. -/
def hash_front (digest : List Nat) : Nat :=
  ((((0 ||| (digest.getD 0 0 <<< 24)) ||| (digest.getD 1 0 <<< 16)) |||
      (digest.getD 2 0 <<< 8)) ||| digest.getD 3 0) % 2 ^ 32

/-- Translation of the acceptance test (mine.c line 274):
`(hash_front & difficulty_mask) == hash_front`. -/
def accepts (difficulty_mask : Nat) (digest : List Nat) : Bool :=
  (hash_front digest &&& difficulty_mask) == hash_front digest

/-- The run-wide parameters: the block data string, the difficulty mask,
and the digest function.  The digest (`sha1sum`, from a separate file)
is opaque: any function from byte strings to 20-byte digests. -/
structure Params where
  blockData : List Char
  mask : Nat
  digest : List Char → List Nat

/-- The per-candidate check a worker performs (mine.c lines 243-274):
build `tmp_str`, hash it, test the leading 32 bits against the mask. -/
def hit (P : Params) (c : Nat) : Bool :=
  accepts P.mask (P.digest (tmp_str P.blockData c))

/-- Spec-side definition: the digest's first four bytes combined as a
big-endian 32-bit unsigned integer (`digest[0]` contributing the most
significant 8 bits). -/
def leadingBits (digest : List Nat) : Nat :=
  digest.getD 0 0 * 2 ^ 24 + digest.getD 1 0 * 2 ^ 16 +
    digest.getD 2 0 * 2 ^ 8 + digest.getD 3 0

/-- Spec-side definition: the big-endian base-10 value of a digit
string (used to state that `decimal` is the canonical representation). -/
def parseDec (s : List Char) : Nat :=
  s.foldl (fun a ch => 10 * a + (ch.toNat - 48)) 0

/-- Spec-side definition: `s` is the canonical base-10 decimal
representation of `c`: nonempty, all digit characters, no leading zero
(except for `"0"` itself), and it denotes `c`. -/
def IsCanonicalDecimal (s : List Char) (c : Nat) : Prop :=
  s ≠ [] ∧ (∀ ch ∈ s, ch.isDigit) ∧ (1 < s.length → s.head? ≠ some '0') ∧
    parseDec s = c

/-- The sequential oracle: run the worker's per-candidate check over
`c, c+1, c+2, …` in order (`fuel` candidates), returning the first
candidate that satisfies it. -/
def seqSearch (P : Params) : Nat → Nat → Option Nat
  | 0, _ => none
  | fuel + 1, c => if hit P c then some c else seqSearch P fuel (c + 1)

/-- Translation of the worker's inner scan (mine.c lines 243-283) over a
claimed batch, starting at index `i`: returns the first nonce of the
batch (from index `i` on) whose digest satisfies the test. -/
def scan_batch_from (P : Params) (ns : List Nat) (i : Nat) : Option Nat :=
  if i < NONCES_PER_TASK then
    (if hit P (ns.getD i 0) then some (ns.getD i 0)
     else scan_batch_from P ns (i + 1))
  else none
termination_by NONCES_PER_TASK - i

/-- A single-threaded run of the search: the lone worker claims the
batches in generation order and scans each fully before the next, for at
most `k` batches; returns the recorded winning nonce, if any. -/
def single_run (P : Params) : Nat → Nat → Option Nat
  | 0, _ => none
  | k + 1, cur =>
    let p := fill_nonces NONCES_PER_TASK cur
    match scan_batch_from P p.1 0 with
    | some c => some c
    | none => single_run P k p.2

/-- Program counter of the generator thread (`main`, mine.c 102-157).
`Acq`, `CheckWhile` and `CheckIf` carry the freshly generated batch;
`CheckWhile` and `CheckIf` hold the mutex. -/
inductive MainPC where
  | Gen
  | Acq (nonces : List Nat)
  | CheckWhile (nonces : List Nat)
  | CheckIf (nonces : List Nat)
  | Done
deriving DecidableEq

/-- Program counter of a worker thread (`mine`, mine.c 210-290).
`CheckWhile` and `CheckIf` hold the mutex; `Proc ns i` is the scan of
claimed batch `ns` at index `i` (no mutex held). -/
inductive WorkerPC where
  | Acq
  | CheckWhile
  | CheckIf
  | Proc (task_nonces : List Nat) (i : Nat)
  | Done
deriving DecidableEq

/-- The `struct thread_info` record of a worker, plus its program
counter.  `nonce`/`solution_hash` are `Option`s: `none` models the
zeroed fields of `calloc` (in C, "no solution recorded" is an empty
`solution_hash` string). -/
structure WorkerState where
  num_inversions : Nat
  nonce : Option Nat
  solution_hash : Option (List Nat)
  pc : WorkerPC
deriving DecidableEq

/-- The shared state of a run: the generator's counter, the single-slot
`task_pointer`, the `solution_found` flag, the mutex, and every
thread's control state.  `gens` is a ghost counter of how many batches
the generator has created (hence of candidates generated:
`120 * gens`). -/
structure SysState where
  current_nonce : Nat
  gens : Nat
  task_pointer : Option (List Nat)
  solution_found : Bool
  mutex : Bool
  mainPC : MainPC
  workers : List WorkerState
deriving DecidableEq

/-- A thread of the system: the generator, or worker number `i`. -/
inductive Tid where
  | main
  | worker (i : Nat)
deriving DecidableEq

/-- One atomic step of the generator thread, when enabled.
* `Gen` (lines 102-115): create the next batch of 120 nonces.
* `Acq` (line 119, also re-entry from `pthread_cond_wait`): take the
  mutex when free.
* `CheckWhile` (line 120): if the slot is full and no solution is
  flagged, wait (release the mutex and re-contend); otherwise fall
  through.
* `CheckIf` (lines 123-134): if `solution_found`, break — broadcast,
  unlock (line 146) and stop without publishing; otherwise store the
  batch in `task_pointer`, signal, unlock, and loop.
* exhaustion of the 64-bit space (loop condition at line 103) ends the
  loop the same way the `break` does. -/
def mainStep (s : SysState) : Option SysState :=
  match s.mainPC with
  | .Gen =>
    if s.current_nonce < UINT64_MAX then
      let p := fill_nonces NONCES_PER_TASK s.current_nonce
      some { s with current_nonce := p.2, gens := s.gens + 1, mainPC := .Acq p.1 }
    else some { s with mainPC := .Done }
  | .Acq ns =>
    if s.mutex then none
    else some { s with mutex := true, mainPC := .CheckWhile ns }
  | .CheckWhile ns =>
    if s.task_pointer.isSome && !s.solution_found then
      some { s with mutex := false, mainPC := .Acq ns }
    else some { s with mainPC := .CheckIf ns }
  | .CheckIf ns =>
    if s.solution_found then some { s with mutex := false, mainPC := .Done }
    else some { s with task_pointer := some ns, mutex := false, mainPC := .Gen }
  | .Done => none

/-- One atomic step of worker `i`, when enabled.
* `Acq` (line 218, also re-entry from `pthread_cond_wait`): take the
  mutex when free.
* `CheckWhile` (line 219): if the slot is empty and no solution is
  flagged, wait (release the mutex and re-contend); otherwise fall
  through.
* `CheckIf` (lines 224-240): if `solution_found`, signal, unlock and
  return without consuming the slot; otherwise claim the task, empty
  the slot, signal, unlock, and start scanning.
* `Proc ns j` (lines 243-286): check nonce `j` of the batch; on a match
  set `solution_found`, record the nonce and digest in this worker's own
  record, and return; otherwise advance; after the whole batch fails,
  add `NONCES_PER_TASK` to `num_inversions` and go back to waiting. -/
def workerStep (P : Params) (s : SysState) (i : Nat) : Option SysState :=
  match s.workers[i]? with
  | none => none
  | some w =>
    match w.pc with
    | .Acq =>
      if s.mutex then none
      else some { s with mutex := true,
                         workers := s.workers.set i { w with pc := .CheckWhile } }
    | .CheckWhile =>
      if s.task_pointer.isNone && !s.solution_found then
        some { s with mutex := false,
                      workers := s.workers.set i { w with pc := .Acq } }
      else some { s with workers := s.workers.set i { w with pc := .CheckIf } }
    | .CheckIf =>
      if s.solution_found then
        some { s with mutex := false,
                      workers := s.workers.set i { w with pc := .Done } }
      else
        match s.task_pointer with
        | some ns =>
          some { s with task_pointer := none, mutex := false,
                        workers := s.workers.set i { w with pc := .Proc ns 0 } }
        | none => none
    | .Proc ns j =>
      if j < NONCES_PER_TASK then
        if hit P (ns.getD j 0) then
          some { s with solution_found := true,
                        workers := s.workers.set i
                          { w with pc := .Done, nonce := some (ns.getD j 0),
                                   solution_hash := some
                                     (P.digest (tmp_str P.blockData (ns.getD j 0))) } }
        else some { s with workers := s.workers.set i { w with pc := .Proc ns (j + 1) } }
      else
        some { s with workers := s.workers.set i
                        { w with pc := .Acq,
                                 num_inversions := w.num_inversions + NONCES_PER_TASK } }
    | .Done => none

/-- One atomic step of thread `t`, when enabled. -/
def stepF (P : Params) (s : SysState) : Tid → Option SysState
  | .main => mainStep s
  | .worker i => workerStep P s i

/-- The state in which a run with `n` workers starts: counter at `0`,
empty slot, flag `false` (line 46), mutex free, generator about to
produce the first batch, every worker about to lock (line 218) with a
`calloc`-zeroed record. -/
def initState (n : Nat) : SysState :=
  { current_nonce := 0, gens := 0, task_pointer := none,
    solution_found := false, mutex := false, mainPC := .Gen,
    workers := List.replicate n
      { num_inversions := 0, nonce := none, solution_hash := none, pc := .Acq } }

/-- Run a schedule: at each entry the named thread takes its step if it
is enabled, and is skipped otherwise.  Every interleaving of the
program corresponds to a schedule. -/
def runSched (P : Params) : SysState → List Tid → SysState
  | s, [] => s
  | s, t :: ts =>
    runSched P (match stepF P s t with | some s2 => s2 | none => s) ts

/-- Total number of fully-processed-and-counted candidates across all
worker records (what `print_results`, lines 292-306, sums). -/
def sumInv (s : SysState) : Nat :=
  (s.workers.map (fun w => w.num_inversions)).sum

/-- Number of worker records that carry a winning candidate. -/
def winners (s : SysState) : Nat :=
  (s.workers.filter (fun w => w.nonce.isSome)).length

/-- The summed batch size a location contributes to the candidate
accounting: the generator holds a full batch from generation until it is
published or dropped. -/
def handCount : MainPC → Nat
  | .Gen => 0
  | .Acq _ => NONCES_PER_TASK
  | .CheckWhile _ => NONCES_PER_TASK
  | .CheckIf _ => NONCES_PER_TASK
  | .Done => 0

/-- The batch size held by the shared slot. -/
def slotCount : Option (List Nat) → Nat
  | none => 0
  | some _ => NONCES_PER_TASK

/-- The batch size held by a worker that is scanning a claimed batch. -/
def procCount : WorkerPC → Nat
  | .Proc _ _ => NONCES_PER_TASK
  | _ => 0

/-- Accounting of all generated candidates: counted ones plus those
still held by the generator, the slot, or a scanning worker. -/
def budget (s : SysState) : Nat :=
  handCount s.mainPC + slotCount s.task_pointer +
    (s.workers.map (fun w => procCount w.pc)).sum + sumInv s

/-- Scanning soundness: a worker at index `j` of its claimed batch has
found no satisfying candidate below `j`, and `j` never exceeds the batch
size. -/
def ScanOk (P : Params) (s : SysState) : Prop :=
  ∀ w ∈ s.workers, ∀ ns j, w.pc = .Proc ns j →
    j ≤ NONCES_PER_TASK ∧ ∀ k, k < j → hit P (ns.getD k 0) = false

/-- Concrete parameter set: difficulty 0 and an all-zero digest, so
every candidate satisfies the test. -/
def Pzero : Params :=
  { blockData := ['a'], mask := get_difficulty 0,
    digest := fun _ => List.replicate 20 0 }

/-- Concrete parameter set: difficulty 1 and an all-ones digest, so no
candidate ever satisfies the test. -/
def Pmiss : Params :=
  { blockData := ['a'], mask := get_difficulty 1,
    digest := fun _ => List.replicate 20 255 }

/-- A schedule for two workers: the generator publishes batches 0 and 1,
each worker claims one, both find a satisfying candidate, both record
it, and the generator then observes the flag and stops. -/
def c1sched : List Tid :=
  [.main, .main, .main, .main, .main,
   .worker 0, .worker 0, .worker 0,
   .main, .main, .main,
   .worker 1, .worker 1, .worker 1,
   .worker 0, .worker 1,
   .main, .main, .main, .main]

/-- A schedule for one worker: publish batch 0, claim it, and find a
satisfying candidate at its first nonce. -/
def c8sched : List Tid :=
  [.main, .main, .main, .main, .worker 0, .worker 0, .worker 0, .worker 0]

/-- A schedule for one worker under `Pmiss`: publish batch 0, claim it,
and scan all 120 nonces without a match. -/
def c9sched : List Tid :=
  [.main, .main, .main, .main, .worker 0, .worker 0, .worker 0] ++
    List.replicate NONCES_PER_TASK (.worker 0)

/-- The state reached by `c9sched`: the lone worker stands at the end of
its fully scanned, matchless batch. -/
def c9state : SysState := runSched Pmiss (initState 1) c9sched

/-- The state after the worker's batch-completion step. -/
def c9after : SysState := (stepF Pmiss c9state (Tid.worker 0)).getD c9state

/-- A default worker record used only to read `Option`s off concrete
states. -/
def wdefault : WorkerState :=
  { num_inversions := 0, nonce := none, solution_hash := none, pc := .Done }

/-- The lone worker's record before the batch-completion step. -/
def c9w : WorkerState := (c9state.workers[0]?).getD wdefault

/-- The lone worker's record after the batch-completion step. -/
def c9w2 : WorkerState := (c9after.workers[0]?).getD wdefault

/-- A state whose generator is inside `publish`, at the wait-loop test,
with the flag already set. -/
def c7s1 : SysState :=
  { current_nonce := 240, gens := 2, task_pointer := some [3],
    solution_found := true, mutex := true, mainPC := .CheckWhile [7],
    workers := [] }

/-- A state whose generator is inside `publish`, at the post-wait flag
test, with the flag already set. -/
def c7s2 : SysState :=
  { current_nonce := 240, gens := 2, task_pointer := none,
    solution_found := true, mutex := true, mainPC := .CheckIf [7],
    workers := [] }

/-- A terminated-generator state. -/
def c7s3 : SysState :=
  { current_nonce := 240, gens := 2, task_pointer := none,
    solution_found := true, mutex := false, mainPC := .Done, workers := [] }

/-- A state whose single worker is inside `claim`, at the wait-loop
test, with the flag already set and a task still in the slot. -/
def c7s4 : SysState :=
  { current_nonce := 240, gens := 2, task_pointer := some [3],
    solution_found := true, mutex := true, mainPC := .Done,
    workers := [{ num_inversions := 0, nonce := none, solution_hash := none,
                  pc := .CheckWhile }] }

/-- A state whose single worker is inside `claim`, at the post-wait flag
test, with the flag already set and a task still in the slot. -/
def c7s5 : SysState :=
  { current_nonce := 240, gens := 2, task_pointer := some [3],
    solution_found := true, mutex := true, mainPC := .Done,
    workers := [{ num_inversions := 0, nonce := none, solution_hash := none,
                  pc := .CheckIf }] }

/-- A state whose single worker stands at a satisfying candidate while
the flag is already set by someone else. -/
def c1ws : SysState :=
  { current_nonce := 240, gens := 2, task_pointer := none,
    solution_found := true, mutex := false, mainPC := .Done,
    workers := [{ num_inversions := 0, nonce := none, solution_hash := none,
                  pc := .Proc [5] 0 }] }

theorem hash_front_eq_leadingBits (dg : List Nat)
    (h0 : dg.getD 0 0 < 256) (h1 : dg.getD 1 0 < 256)
    (h2 : dg.getD 2 0 < 256) (h3 : dg.getD 3 0 < 256) :
    hash_front dg = leadingBits dg := by
  unfold hash_front leadingBits
  set b0 := dg.getD 0 0
  set b1 := dg.getD 1 0
  set b2 := dg.getD 2 0
  set b3 := dg.getD 3 0
  rw [Nat.zero_or, Nat.shiftLeft_eq, Nat.shiftLeft_eq, Nat.shiftLeft_eq]
  have e1 : b0 * 2 ^ 24 ||| b1 * 2 ^ 16 = b0 * 2 ^ 24 + b1 * 2 ^ 16 := by
    rw [Nat.mul_comm b0 (2 ^ 24)]
    refine (Nat.mul_add_lt_is_or ?_ b0).symm
    calc b1 * 2 ^ 16 < 256 * 2 ^ 16 :=
          Nat.mul_lt_mul_of_lt_of_le h1 (Nat.le_refl _) (by norm_num)
      _ = 2 ^ 24 := by norm_num
  rw [e1]
  have e2 : b0 * 2 ^ 24 + b1 * 2 ^ 16 ||| b2 * 2 ^ 8 =
      b0 * 2 ^ 24 + b1 * 2 ^ 16 + b2 * 2 ^ 8 := by
    have hrw : b0 * 2 ^ 24 + b1 * 2 ^ 16 = 2 ^ 16 * (2 ^ 8 * b0 + b1) := by ring
    rw [hrw]
    refine (Nat.mul_add_lt_is_or ?_ _).symm
    calc b2 * 2 ^ 8 < 256 * 2 ^ 8 :=
          Nat.mul_lt_mul_of_lt_of_le h2 (Nat.le_refl _) (by norm_num)
      _ = 2 ^ 16 := by norm_num
  rw [e2]
  have e3 : b0 * 2 ^ 24 + b1 * 2 ^ 16 + b2 * 2 ^ 8 ||| b3 =
      b0 * 2 ^ 24 + b1 * 2 ^ 16 + b2 * 2 ^ 8 + b3 := by
    have hrw : b0 * 2 ^ 24 + b1 * 2 ^ 16 + b2 * 2 ^ 8 =
        2 ^ 8 * (2 ^ 16 * b0 + 2 ^ 8 * b1 + b2) := by ring
    rw [hrw]
    exact (Nat.mul_add_lt_is_or h3 _).symm
  rw [e3]
  apply Nat.mod_eq_of_lt
  have p24 : (2:Nat) ^ 24 = 16777216 := by norm_num
  have p16 : (2:Nat) ^ 16 = 65536 := by norm_num
  have p8 : (2:Nat) ^ 8 = 256 := by norm_num
  have p32 : (2:Nat) ^ 32 = 4294967296 := by norm_num
  omega

/-- C2: for every difficulty `d` in `[0, 32]`, the computed mask equals
`2 ^ (32 - d) - 1` as a 32-bit unsigned value; equivalently its high `d`
bits are 0 and its low `32 - d` bits are 1. -/
theorem c2_difficulty_mask_bits (d : Nat) (h : d ≤ 32) :
    get_difficulty d = 2 ^ (32 - d) - 1 ∧
      ∀ i, i < 32 → Nat.testBit (get_difficulty d) i = decide (i < 32 - d) := by
  interval_cases d <;> exact ⟨by decide, by decide⟩

theorem c2_difficulty_mask_bits_witness :
    get_difficulty (24 : Nat) = 2 ^ (32 - 24) - 1 ∧
      ∀ i, i < 32 → Nat.testBit (get_difficulty (24 : Nat)) i = decide (i < 32 - 24) :=
  c2_difficulty_mask_bits 24 (by decide)

/-- C10: for every difficulty argument `d ≥ 32`, including values above
the documented range, `get_difficulty` returns the all-zero mask,
identical to difficulty 32; out-of-range high difficulties do not
fail. -/
theorem c10_difficulty_above_range_zero_mask (d : Int) (h : 32 ≤ d) :
    get_difficulty d = 0 ∧ get_difficulty d = get_difficulty 32 := by
  have h32 : (32 - d).toNat = 0 := by omega
  refine ⟨?_, ?_⟩ <;> simp [get_difficulty, h32]

theorem c10_difficulty_above_range_zero_mask_witness :
    get_difficulty 33 = 0 ∧ get_difficulty 33 = get_difficulty 32 :=
  c10_difficulty_above_range_zero_mask 33 (by decide)

/-- C4: a worker accepts a candidate exactly when
`(leadingBits AND difficultyMask) == leadingBits`, where `leadingBits`
combines the digest's first four bytes big-endian (byte 0 most
significant). -/
theorem c4_accept_iff_leadingBits_masked (difficulty_mask : Nat) (dg : List Nat)
    (h0 : dg.getD 0 0 < 256) (h1 : dg.getD 1 0 < 256)
    (h2 : dg.getD 2 0 < 256) (h3 : dg.getD 3 0 < 256) :
    accepts difficulty_mask dg = true ↔
      leadingBits dg &&& difficulty_mask = leadingBits dg := by
  rw [accepts, hash_front_eq_leadingBits dg h0 h1 h2 h3, beq_iff_eq]

theorem c4_accept_iff_leadingBits_masked_witness :
    (accepts 255 (List.replicate 20 0) = true ↔
      leadingBits (List.replicate 20 0) &&& 255 = leadingBits (List.replicate 20 0)) :=
  c4_accept_iff_leadingBits_masked 255 (List.replicate 20 0)
    (by decide) (by decide) (by decide) (by decide)

theorem digit_toNat : ∀ d, d < 10 → (Char.ofNat (48 + d)).toNat = 48 + d := by decide

theorem digit_isDigit : ∀ d, d < 10 → (Char.ofNat (48 + d)).isDigit = true := by decide

theorem digit_ne_zero : ∀ d, d < 10 → 0 < d → Char.ofNat (48 + d) ≠ '0' := by decide

theorem decimalAux_zero (fuel : Nat) : decimalAux fuel 0 = [] := by
  cases fuel <;> simp [decimalAux]

theorem decimalAux_val (fuel : Nat) : ∀ n, n ≤ fuel →
    (decimalAux fuel n).foldr (fun ch a => 10 * a + (ch.toNat - 48)) 0 = n := by
  induction fuel with
  | zero => intro n hn; interval_cases n; simp [decimalAux]
  | succ fuel ih =>
    intro n hn
    by_cases h0 : n = 0
    · subst h0; simp [decimalAux]
    · rw [decimalAux]
      simp only [h0, if_false, List.foldr_cons]
      rw [ih (n / 10) (by omega), digit_toNat (n % 10) (by omega)]
      omega

theorem decimalAux_mem (fuel : Nat) : ∀ n ch, ch ∈ decimalAux fuel n →
    ch.isDigit = true := by
  induction fuel with
  | zero => intro n ch h; simp [decimalAux] at h
  | succ fuel ih =>
    intro n ch h
    rw [decimalAux] at h
    by_cases h0 : n = 0
    · simp [h0] at h
    · simp only [h0, if_false, List.mem_cons] at h
      rcases h with h | h
      · subst h; exact digit_isDigit (n % 10) (by omega)
      · exact ih (n / 10) ch h

theorem decimalAux_ne_nil (fuel n : Nat) (h0 : 0 < n) (hn : n ≤ fuel) :
    decimalAux fuel n ≠ [] := by
  cases fuel with
  | zero => omega
  | succ fuel =>
    rw [decimalAux]
    simp only [if_neg (by omega : ¬ n = 0)]
    exact List.cons_ne_nil _ _

theorem decimalAux_getLast (fuel : Nat) : ∀ n ch, 0 < n → n ≤ fuel →
    (decimalAux fuel n).getLast? = some ch → ch ≠ '0' := by
  induction fuel with
  | zero => intro n ch h0 hn; omega
  | succ fuel ih =>
    intro n ch h0 hn hlast
    rw [decimalAux] at hlast
    simp only [if_neg (by omega : ¬ n = 0)] at hlast
    by_cases hq : n / 10 = 0
    · rw [hq, decimalAux_zero] at hlast
      simp only [List.getLast?_singleton, Option.some.injEq] at hlast
      subst hlast
      exact digit_ne_zero (n % 10) (by omega) (by omega)
    · rw [List.getLast?_cons] at hlast
      cases hg : (decimalAux fuel (n / 10)).getLast? with
      | none =>
        exact absurd (List.getLast?_eq_none_iff.mp hg)
          (decimalAux_ne_nil fuel (n / 10) (by omega) (by omega))
      | some ch2 =>
        rw [hg] at hlast
        simp only [Option.getD_some, Option.some.injEq] at hlast
        subst hlast
        exact ih (n / 10) ch2 (by omega) (by omega) hg

theorem parseDec_reverse (L : List Char) :
    parseDec L.reverse = L.foldr (fun ch a => 10 * a + (ch.toNat - 48)) 0 := by
  rw [parseDec, List.foldl_reverse]

theorem decimal_canonical (c : Nat) : IsCanonicalDecimal (decimal c) c := by
  by_cases h0 : c = 0
  · subst h0
    exact ⟨by decide, by decide, by decide, by decide⟩
  · rw [decimal, if_neg h0]
    refine ⟨?_, ?_, ?_, ?_⟩
    · simp only [ne_eq, List.reverse_eq_nil_iff]
      exact decimalAux_ne_nil c c (by omega) (le_refl c)
    · intro ch hch
      exact decimalAux_mem c c ch (List.mem_reverse.mp hch)
    · intro _ hhead
      rw [List.head?_reverse] at hhead
      exact absurd rfl (decimalAux_getLast c c '0' (by omega) (le_refl c) hhead)
    · rw [parseDec_reverse]
      exact decimalAux_val c c (le_refl c)

/-- C3: the byte sequence a worker hashes for candidate `c` is exactly
the block data followed by the canonical base-10 decimal representation
of `c`, byte for byte. -/
theorem c3_hashed_bytes_block_then_decimal (bitcoin_block_data : List Char) (c : Nat) :
    tmp_str bitcoin_block_data c = bitcoin_block_data ++ decimal c ∧
      IsCanonicalDecimal (decimal c) c :=
  ⟨rfl, decimal_canonical c⟩

theorem fill_nonces_fst (n : Nat) : ∀ cur, cur + n ≤ 2 ^ 64 →
    (fill_nonces n cur).1 = List.range' cur n := by
  induction n with
  | zero => intro cur h; simp [fill_nonces, List.range']
  | succ n ih =>
    intro cur h
    rw [fill_nonces, List.range'_succ]
    cases n with
    | zero => simp [fill_nonces, List.range']
    | succ m =>
      have hmod : (cur + 1) % 2 ^ 64 = cur + 1 := Nat.mod_eq_of_lt (by omega)
      simp only [hmod]
      rw [ih (cur + 1) (by omega)]

theorem fill_nonces_snd (n : Nat) : ∀ cur, cur + n < 2 ^ 64 →
    (fill_nonces n cur).2 = cur + n := by
  induction n with
  | zero => intro cur h; simp [fill_nonces]
  | succ n ih =>
    intro cur h
    rw [fill_nonces]
    have hmod : (cur + 1) % 2 ^ 64 = cur + 1 := Nat.mod_eq_of_lt (by omega)
    simp only [hmod]
    rw [ih (cur + 1) (by omega)]
    omega

theorem seqSearch_split (P : Params) (f1 : Nat) : ∀ f2 c,
    seqSearch P (f1 + f2) c =
      (match seqSearch P f1 c with
       | some x => some x
       | none => seqSearch P f2 (c + f1)) := by
  induction f1 with
  | zero => intro f2 c; simp [seqSearch]
  | succ f1 ih =>
    intro f2 c
    have hadd : f1 + 1 + f2 = (f1 + f2) + 1 := by omega
    rw [hadd, seqSearch, seqSearch]
    by_cases h : hit P c
    · simp [h]
    · simp only [if_neg h]
      rw [ih f2 (c + 1)]
      have hc : c + 1 + f1 = c + (f1 + 1) := by omega
      rw [hc]

theorem seqSearch_some (P : Params) (fuel : Nat) : ∀ c x,
    seqSearch P fuel c = some x →
      hit P x = true ∧ c ≤ x ∧ x < c + fuel ∧
        ∀ y, c ≤ y → y < x → hit P y = false := by
  induction fuel with
  | zero => intro c x h; simp [seqSearch] at h
  | succ fuel ih =>
    intro c x h
    rw [seqSearch] at h
    by_cases hc : hit P c
    · simp only [hc, if_true, Option.some.injEq] at h
      subst h
      exact ⟨hc, le_refl c, by omega, fun y h1 h2 => absurd h1 (by omega)⟩
    · simp only [hc, if_false] at h
      obtain ⟨ha, hb, hc2, hd⟩ := ih (c + 1) x h
      refine ⟨ha, by omega, by omega, fun y h1 h2 => ?_⟩
      by_cases hy : y = c
      · subst hy; exact Bool.eq_false_iff.mpr hc
      · exact hd y (by omega) h2

theorem seqSearch_none (P : Params) (fuel : Nat) : ∀ c,
    seqSearch P fuel c = none → ∀ y, c ≤ y → y < c + fuel → hit P y = false := by
  induction fuel with
  | zero => intro c _ y h1 h2; omega
  | succ fuel ih =>
    intro c h y h1 h2
    rw [seqSearch] at h
    by_cases hc : hit P c
    · simp [hc] at h
    · simp only [hc, if_false] at h
      by_cases hy : y = c
      · subst hy; exact Bool.eq_false_iff.mpr hc
      · exact ih (c + 1) h y (by omega) (by omega)

theorem scan_batch_range' (P : Params) (cur : Nat) (m : Nat) : ∀ j,
    m ≤ NONCES_PER_TASK → j = NONCES_PER_TASK - m →
    scan_batch_from P (List.range' cur NONCES_PER_TASK) j = seqSearch P m (cur + j) := by
  induction m with
  | zero =>
    intro j _ hj
    rw [scan_batch_from]
    simp only [hj]
    norm_num [NONCES_PER_TASK, seqSearch]
  | succ m ih =>
    intro j hm hj
    have hjlt : j < NONCES_PER_TASK := by omega
    rw [scan_batch_from, if_pos hjlt]
    have hget : (List.range' cur NONCES_PER_TASK).getD j 0 = cur + j := by
      rw [List.getD_eq_getElem?_getD, List.getElem?_range' cur 1 hjlt]
      simp
    rw [hget, seqSearch]
    by_cases h : hit P (cur + j)
    · simp [h]
    · simp only [if_neg h]
      rw [ih (j + 1) (by omega) (by omega)]
      have hc : cur + j + 1 = cur + (j + 1) := by omega
      rw [hc]

theorem single_run_eq_seqSearch (P : Params) : ∀ k cur,
    cur + NONCES_PER_TASK * k ≤ 2 ^ 64 →
    single_run P k cur = seqSearch P (NONCES_PER_TASK * k) cur := by
  intro k
  induction k with
  | zero => intro cur h; simp [single_run, seqSearch]
  | succ k ih =>
    intro cur h
    rw [single_run]
    have hfst : (fill_nonces NONCES_PER_TASK cur).1 = List.range' cur NONCES_PER_TASK :=
      fill_nonces_fst NONCES_PER_TASK cur (by simp [NONCES_PER_TASK] at h ⊢; omega)
    have hscan : scan_batch_from P (fill_nonces NONCES_PER_TASK cur).1 0 =
        seqSearch P NONCES_PER_TASK cur := by
      rw [hfst]
      have hs := scan_batch_range' P cur NONCES_PER_TASK 0 (le_refl _) (by omega)
      simpa using hs
    have hmul : NONCES_PER_TASK * (k + 1) = NONCES_PER_TASK + NONCES_PER_TASK * k := by
      ring
    rw [hmul, seqSearch_split P NONCES_PER_TASK (NONCES_PER_TASK * k) cur, hscan]
    cases hs : seqSearch P NONCES_PER_TASK cur with
    | some x => simp
    | none =>
      simp only []
      cases k with
      | zero => simp [single_run, seqSearch]
      | succ k2 =>
        have hsnd : (fill_nonces NONCES_PER_TASK cur).2 = cur + NONCES_PER_TASK :=
          fill_nonces_snd NONCES_PER_TASK cur
            (by simp [NONCES_PER_TASK] at h ⊢; omega)
        rw [hsnd]
        exact ih (cur + NONCES_PER_TASK) (by simp [NONCES_PER_TASK] at h ⊢; omega)

/-- C6: when some candidate satisfies the predicate, scanning the
candidates `0, 1, 2, …` in order with the worker's per-candidate check
stops at exactly the smallest satisfying candidate, and the
single-threaded batch-by-batch run of the search reports that same
smallest candidate as the winner. -/
theorem c6_single_threaded_finds_least (P : Params) (c0 : Nat)
    (h : hit P c0 = true) (k : Nat) (hk : c0 < NONCES_PER_TASK * k)
    (hbound : NONCES_PER_TASK * k ≤ 2 ^ 64) :
    ∃ c, single_run P k 0 = some c ∧ seqSearch P (NONCES_PER_TASK * k) 0 = some c ∧
      hit P c = true ∧ ∀ y, y < c → hit P y = false := by
  have heq := single_run_eq_seqSearch P k 0 (by omega)
  cases hs : seqSearch P (NONCES_PER_TASK * k) 0 with
  | none =>
    have := seqSearch_none P (NONCES_PER_TASK * k) 0 hs c0 (by omega) (by omega)
    rw [h] at this
    cases this
  | some c =>
    obtain ⟨ha, _, _, hd⟩ := seqSearch_some P (NONCES_PER_TASK * k) 0 c hs
    exact ⟨c, by rw [heq, hs], rfl, ha, fun y hy => hd y (by omega) hy⟩

theorem c6_single_threaded_finds_least_witness :
    ∃ c, single_run Pzero 1 0 = some c ∧
      seqSearch Pzero (NONCES_PER_TASK * 1) 0 = some c ∧
      hit Pzero c = true ∧ ∀ y, y < c → hit Pzero y = false :=
  c6_single_threaded_finds_least Pzero 0 (by decide) 1 (by decide) (by decide)

theorem fill_nonces_snd_mod (n : Nat) : ∀ cur, cur < 2 ^ 64 →
    (fill_nonces n cur).2 = (cur + n) % 2 ^ 64 := by
  induction n with
  | zero => intro cur h; simpa [fill_nonces] using (Nat.mod_eq_of_lt h).symm
  | succ n ih =>
    intro cur h
    rw [fill_nonces]
    have hlt : (cur + 1) % 2 ^ 64 < 2 ^ 64 := Nat.mod_lt _ (by norm_num)
    simp only []
    rw [ih ((cur + 1) % 2 ^ 64) hlt, Nat.mod_add_mod]
    have hc : cur + 1 + n = cur + (n + 1) := by omega
    rw [hc]

theorem gen_state_eq (k : Nat) : gen_state k = (NONCES_PER_TASK * k) % 2 ^ 64 := by
  induction k with
  | zero => simp [gen_state]
  | succ k ih =>
    rw [gen_state, fill_nonces_snd_mod NONCES_PER_TASK (gen_state k)
          (by rw [ih]; exact Nat.mod_lt _ (by norm_num)), ih, Nat.mod_add_mod]
    have hc : NONCES_PER_TASK * k + NONCES_PER_TASK = NONCES_PER_TASK * (k + 1) := by ring
    rw [hc]

/-- C5 counterexample: candidate 0 appears both in batch 0 and in batch
153722867280912930 (the batch at which the 64-bit counter wraps), and
that batch is not the range 120·k .. 120·k + 119 the claim asserts: a
long enough run repeats candidates. -/
theorem c5_counterexample_wrap_repeats_candidate :
    (0 : Nat) ∈ nthBatch 0 ∧ (0 : Nat) ∈ nthBatch 153722867280912930 ∧
      ¬ (0 : Nat) ∈ List.range' (NONCES_PER_TASK * 153722867280912930) NONCES_PER_TASK := by
  refine ⟨by decide, ?_, ?_⟩
  · rw [nthBatch, gen_state_eq]
    have he : (NONCES_PER_TASK * 153722867280912930) % 2 ^ 64 = 2 ^ 64 - 16 := by
      norm_num [NONCES_PER_TASK]
    rw [he]
    decide
  · intro hmem
    rw [List.mem_range'] at hmem
    obtain ⟨i, _, hi⟩ := hmem
    simp only [NONCES_PER_TASK] at hi
    omega

/-- C5 amended: before the 64-bit counter wraps (batches `k` with
`120 * (k + 1) ≤ 2 ^ 64`), batch `k` holds exactly candidates
`120 k .. 120 k + 119`, and the concatenation of the first `n` batches,
for `120 * n ≤ 2 ^ 64`, is exactly `0, 1, …, 120 n - 1` with no gap and
no duplicate. -/
theorem c5_amended_batches_before_wrap :
    (∀ k, NONCES_PER_TASK * (k + 1) ≤ 2 ^ 64 →
        nthBatch k = List.range' (NONCES_PER_TASK * k) NONCES_PER_TASK) ∧
    (∀ n, NONCES_PER_TASK * n ≤ 2 ^ 64 →
        ((List.range n).map nthBatch).flatten = List.range (NONCES_PER_TASK * n)) := by
  have hfirst : ∀ k, NONCES_PER_TASK * (k + 1) ≤ 2 ^ 64 →
      nthBatch k = List.range' (NONCES_PER_TASK * k) NONCES_PER_TASK := by
    intro k hk
    have h120 : (NONCES_PER_TASK : Nat) = 120 := rfl
    rw [h120] at hk
    have hlt : NONCES_PER_TASK * k < 2 ^ 64 := by rw [h120]; omega
    rw [nthBatch, gen_state_eq, Nat.mod_eq_of_lt hlt]
    exact fill_nonces_fst NONCES_PER_TASK (NONCES_PER_TASK * k) (by rw [h120]; omega)
  refine ⟨hfirst, ?_⟩
  intro n
  induction n with
  | zero => intro _; simp
  | succ n ih =>
    intro hn
    have h120 : (NONCES_PER_TASK : Nat) = 120 := rfl
    rw [List.range_succ, List.map_append, List.flatten_append]
    rw [ih (by rw [h120] at hn ⊢; omega)]
    simp only [List.map_cons, List.map_nil, List.flatten_cons, List.flatten_nil,
      List.append_nil]
    rw [hfirst n hn]
    have hmul : NONCES_PER_TASK * (n + 1) = NONCES_PER_TASK * n + NONCES_PER_TASK := by
      ring
    rw [hmul, List.range_add, List.range'_eq_map_range]

theorem c5_amended_batches_before_wrap_witness :
    nthBatch 1 = List.range' (NONCES_PER_TASK * 1) NONCES_PER_TASK ∧
      ((List.range 1).map nthBatch).flatten = List.range (NONCES_PER_TASK * 1) :=
  ⟨c5_amended_batches_before_wrap.1 1 (by decide),
   c5_amended_batches_before_wrap.2 1 (by decide)⟩

theorem step_flag_mono (P : Params) (s : SysState) (t : Tid) (s2 : SysState)
    (h : stepF P s t = some s2) (hf : s.solution_found = true) :
    s2.solution_found = true := by
  cases t with
  | main =>
    simp only [stepF, mainStep] at h
    split at h <;> (try split at h) <;>
      first
        | exact Option.noConfusion h
        | (injection h with h2; subst h2; exact hf)
  | worker i =>
    cases hw : s.workers[i]? with
    | none =>
      simp only [stepF, workerStep, hw] at h
      exact Option.noConfusion h
    | some w =>
      simp only [stepF, workerStep, hw] at h
      split at h <;> (try split at h) <;> (try split at h) <;>
        first
          | exact Option.noConfusion h
          | (injection h with h2; subst h2; exact hf)
          | (injection h with h2; subst h2; rfl)

theorem runSched_flag_mono (P : Params) (ts : List Tid) : ∀ s,
    s.solution_found = true → (runSched P s ts).solution_found = true := by
  induction ts with
  | nil => intro s h; exact h
  | cons t ts ih =>
    intro s h
    rw [runSched]
    cases hs : stepF P s t with
    | none => exact ih s h
    | some s2 => exact ih s2 (step_flag_mono P s t s2 hs h)

/-- C8: the termination flag starts `false` and, once observed `true`
at any point of a run, remains `true` for the entire remainder of the
run: it transitions `false → true` at most once and never reverts. -/
theorem c8_flag_monotone (P : Params) (n : Nat) (ts1 ts2 : List Tid) :
    (initState n).solution_found = false ∧
      ((runSched P (initState n) ts1).solution_found = true →
        (runSched P (runSched P (initState n) ts1) ts2).solution_found = true) :=
  ⟨rfl, fun h => runSched_flag_mono P ts2 _ h⟩

theorem c8_flag_monotone_witness :
    (initState 1).solution_found = false ∧
      (runSched Pzero (runSched Pzero (initState 1) c8sched) [Tid.main]).solution_found
        = true :=
  ⟨(c8_flag_monotone Pzero 1 c8sched [Tid.main]).1,
   (c8_flag_monotone Pzero 1 c8sched [Tid.main]).2 (by decide)⟩

/-- C7: once the run has terminated (flag set), `publish` returns
without storing its task and leaves the shared slot unchanged, `claim`
returns the terminated outcome without removing anything from the slot,
and the generator, once stopped, never publishes again. -/
theorem c7_terminated_channel_noop (P : Params) :
    (∀ s ns, s.mainPC = .CheckWhile ns → s.solution_found = true →
       stepF P s .main = some { s with mainPC := .CheckIf ns }) ∧
    (∀ s ns, s.mainPC = .CheckIf ns → s.solution_found = true →
       stepF P s .main = some { s with mutex := false, mainPC := .Done }) ∧
    (∀ s, s.mainPC = .Done → stepF P s .main = none) ∧
    (∀ s i w, s.workers[i]? = some w → w.pc = .CheckWhile → s.solution_found = true →
       stepF P s (.worker i) =
         some { s with workers := s.workers.set i { w with pc := .CheckIf } }) ∧
    (∀ s i w, s.workers[i]? = some w → w.pc = .CheckIf → s.solution_found = true →
       stepF P s (.worker i) =
         some { s with mutex := false,
                       workers := s.workers.set i { w with pc := .Done } }) := by
  refine ⟨?_, ?_, ?_, ?_, ?_⟩
  · intro s ns hm hf
    simp [stepF, mainStep, hm, hf]
  · intro s ns hm hf
    simp [stepF, mainStep, hm, hf]
  · intro s hm
    simp [stepF, mainStep, hm]
  · intro s i w hw hpc hf
    simp [stepF, workerStep, hw, hpc, hf]
  · intro s i w hw hpc hf
    simp [stepF, workerStep, hw, hpc, hf]

theorem c7_terminated_channel_noop_witness :
    stepF Pzero c7s1 .main = some { c7s1 with mainPC := .CheckIf [7] } ∧
    stepF Pzero c7s2 .main = some { c7s2 with mutex := false, mainPC := .Done } ∧
    stepF Pzero c7s3 .main = none ∧
    stepF Pzero c7s4 (.worker 0) =
      some { c7s4 with workers :=
                         c7s4.workers.set 0
                           { num_inversions := 0, nonce := none,
                             solution_hash := none, pc := .CheckIf } } ∧
    stepF Pzero c7s5 (.worker 0) =
      some { c7s5 with mutex := false,
                       workers :=
                         c7s5.workers.set 0
                           { num_inversions := 0, nonce := none,
                             solution_hash := none, pc := .Done } } :=
  ⟨(c7_terminated_channel_noop Pzero).1 c7s1 [7] rfl rfl,
   (c7_terminated_channel_noop Pzero).2.1 c7s2 [7] rfl rfl,
   (c7_terminated_channel_noop Pzero).2.2.1 c7s3 rfl,
   (c7_terminated_channel_noop Pzero).2.2.2.1 c7s4 0
     { num_inversions := 0, nonce := none, solution_hash := none, pc := .CheckWhile }
     rfl rfl rfl,
   (c7_terminated_channel_noop Pzero).2.2.2.2 c7s5 0
     { num_inversions := 0, nonce := none, solution_hash := none, pc := .CheckIf }
     rfl rfl rfl⟩

/-- C1 amended: a worker that reaches a satisfying candidate always
sets the termination flag and records the candidate and its digest in
its own record, whether or not the flag was already set by another
worker; nothing in the code abandons the match when the flag is found
already set. -/
theorem c1_amended_worker_records_unconditionally (P : Params) (s : SysState)
    (i : Nat) (w : WorkerState) (ns : List Nat) (j : Nat)
    (hw : s.workers[i]? = some w) (hpc : w.pc = .Proc ns j)
    (hj : j < NONCES_PER_TASK) (hhit : hit P (ns.getD j 0) = true) :
    stepF P s (.worker i) =
      some { s with solution_found := true,
                    workers := s.workers.set i
                      { w with pc := .Done, nonce := some (ns.getD j 0),
                               solution_hash := some
                                 (P.digest (tmp_str P.blockData (ns.getD j 0))) } } := by
  simp only [stepF, workerStep, hw, hpc]
  rw [if_pos hj, if_pos hhit]

theorem c1_amended_worker_records_unconditionally_witness :
    c1ws.solution_found = true ∧
      stepF Pzero c1ws (.worker 0) =
        some { c1ws with solution_found := true,
                         workers := c1ws.workers.set 0
                           { num_inversions := 0, nonce := some 5,
                             solution_hash := some
                               (Pzero.digest (tmp_str Pzero.blockData 5)),
                             pc := .Done } } :=
  ⟨rfl,
   c1_amended_worker_records_unconditionally Pzero c1ws 0
     { num_inversions := 0, nonce := none, solution_hash := none, pc := .Proc [5] 0 }
     [5] 0 rfl rfl (by decide) (by decide)⟩

set_option maxRecDepth 100000 in
/-- C1 counterexample: a completed two-worker run in which both worker
records carry a winning candidate — worker 0 records nonce 0 and worker
1 records nonce 120 — refuting "at most one WorkerRecord carries a
winning candidate". -/
theorem c1_counterexample_two_records_win :
    winners (runSched Pzero (initState 2) c1sched) = 2 ∧
      (runSched Pzero (initState 2) c1sched).workers.map (fun w => w.nonce)
        = [some 0, some 120] ∧
      (runSched Pzero (initState 2) c1sched).mainPC = MainPC.Done ∧
      ∀ w ∈ (runSched Pzero (initState 2) c1sched).workers, w.pc = WorkerPC.Done := by
  refine ⟨?_, ?_, ?_, ?_⟩ <;> decide

theorem sum_map_set (f : WorkerState → Nat) : ∀ (l : List WorkerState) (i : Nat)
    (x w : WorkerState), l[i]? = some w →
    ((l.set i x).map f).sum + f w = (l.map f).sum + f x := by
  intro l
  induction l with
  | nil => intro i x w h; simp at h
  | cons a l ih =>
    intro i x w h
    cases i with
    | zero =>
      simp only [List.getElem?_cons_zero, Option.some.injEq] at h
      subst h
      simp only [List.set_cons_zero, List.map_cons, List.sum_cons]
      omega
    | succ i =>
      simp only [List.getElem?_cons_succ] at h
      simp only [List.set_cons_succ, List.map_cons, List.sum_cons]
      have hs := ih i x w h
      omega

theorem budget_step (P : Params) (s : SysState) (t : Tid) (s2 : SysState)
    (h : stepF P s t = some s2) (hb : budget s ≤ NONCES_PER_TASK * s.gens) :
    budget s2 ≤ NONCES_PER_TASK * s2.gens := by
  cases t with
  | main =>
    simp only [stepF, mainStep] at h
    split at h
    case h_1 heq =>
      split at h <;> (injection h with h2; subst h2) <;>
        simp [budget, heq, handCount, slotCount, sumInv, NONCES_PER_TASK] at hb ⊢ <;>
        omega
    case h_2 ns heq =>
      split at h
      · exact Option.noConfusion h
      · injection h with h2; subst h2
        simp [budget, heq, handCount, slotCount, sumInv, NONCES_PER_TASK] at hb ⊢
        omega
    case h_3 ns heq =>
      split at h <;> (injection h with h2; subst h2) <;>
        simp [budget, heq, handCount, slotCount, sumInv, NONCES_PER_TASK] at hb ⊢ <;>
        omega
    case h_4 ns heq =>
      split at h <;> (injection h with h2; subst h2) <;>
        simp [budget, heq, handCount, slotCount, sumInv, NONCES_PER_TASK] at hb ⊢
      · omega
      · cases htp : s.task_pointer <;>
          simp [htp, slotCount] at hb ⊢ <;> omega
    case h_5 heq => exact Option.noConfusion h
  | worker i =>
    cases hw : s.workers[i]? with
    | none =>
      simp only [stepF, workerStep, hw] at h
      exact Option.noConfusion h
    | some w =>
      simp only [stepF, workerStep, hw] at h
      split at h
      case h_1 heq =>
        split at h
        · exact Option.noConfusion h
        · injection h with h2; subst h2
          have e1 := sum_map_set (fun u => procCount u.pc) s.workers i
            { w with pc := .CheckWhile } w hw
          have e2 := sum_map_set (fun u => u.num_inversions) s.workers i
            { w with pc := .CheckWhile } w hw
          simp [heq, budget, sumInv, procCount, handCount, slotCount,
            NONCES_PER_TASK] at e1 e2 hb ⊢
          omega
      case h_2 heq =>
        split at h <;> (injection h with h2; subst h2)
        · have e1 := sum_map_set (fun u => procCount u.pc) s.workers i
            { w with pc := .Acq } w hw
          have e2 := sum_map_set (fun u => u.num_inversions) s.workers i
            { w with pc := .Acq } w hw
          simp [heq, budget, sumInv, procCount, handCount, slotCount,
            NONCES_PER_TASK] at e1 e2 hb ⊢
          omega
        · have e1 := sum_map_set (fun u => procCount u.pc) s.workers i
            { w with pc := .CheckIf } w hw
          have e2 := sum_map_set (fun u => u.num_inversions) s.workers i
            { w with pc := .CheckIf } w hw
          simp [heq, budget, sumInv, procCount, handCount, slotCount,
            NONCES_PER_TASK] at e1 e2 hb ⊢
          omega
      case h_3 heq =>
        split at h
        · injection h with h2; subst h2
          have e1 := sum_map_set (fun u => procCount u.pc) s.workers i
            { w with pc := .Done } w hw
          have e2 := sum_map_set (fun u => u.num_inversions) s.workers i
            { w with pc := .Done } w hw
          simp [heq, budget, sumInv, procCount, handCount, slotCount,
            NONCES_PER_TASK] at e1 e2 hb ⊢
          omega
        · cases htp : s.task_pointer with
          | none => rw [htp] at h; exact Option.noConfusion h
          | some ns =>
            rw [htp] at h
            injection h with h2; subst h2
            have e1 := sum_map_set (fun u => procCount u.pc) s.workers i
              { w with pc := .Proc ns 0 } w hw
            have e2 := sum_map_set (fun u => u.num_inversions) s.workers i
              { w with pc := .Proc ns 0 } w hw
            simp [heq, budget, sumInv, procCount, handCount, slotCount, htp, slotCount,
              NONCES_PER_TASK] at e1 e2 hb ⊢
            omega
      case h_4 ns j heq =>
        split at h
        · split at h <;> (injection h with h2; subst h2)
          · have e1 := sum_map_set (fun u => procCount u.pc) s.workers i
              { w with pc := .Done, nonce := some (ns.getD j 0),
                       solution_hash := some
                         (P.digest (tmp_str P.blockData (ns.getD j 0))) } w hw
            have e2 := sum_map_set (fun u => u.num_inversions) s.workers i
              { w with pc := .Done, nonce := some (ns.getD j 0),
                       solution_hash := some
                         (P.digest (tmp_str P.blockData (ns.getD j 0))) } w hw
            simp [heq, budget, sumInv, procCount, handCount, slotCount,
              NONCES_PER_TASK] at e1 e2 hb ⊢
            omega
          · have e1 := sum_map_set (fun u => procCount u.pc) s.workers i
              { w with pc := .Proc ns (j + 1) } w hw
            have e2 := sum_map_set (fun u => u.num_inversions) s.workers i
              { w with pc := .Proc ns (j + 1) } w hw
            simp [heq, budget, sumInv, procCount, handCount, slotCount,
              NONCES_PER_TASK] at e1 e2 hb ⊢
            omega
        · injection h with h2; subst h2
          have e1 := sum_map_set (fun u => procCount u.pc) s.workers i
            { w with pc := .Acq,
                     num_inversions := w.num_inversions + NONCES_PER_TASK } w hw
          have e2 := sum_map_set (fun u => u.num_inversions) s.workers i
            { w with pc := .Acq,
                     num_inversions := w.num_inversions + NONCES_PER_TASK } w hw
          simp [heq, budget, sumInv, procCount, handCount, slotCount,
            NONCES_PER_TASK] at e1 e2 hb ⊢
          omega
      case h_5 heq => exact Option.noConfusion h

theorem scanOk_step (P : Params) (s : SysState) (t : Tid) (s2 : SysState)
    (h : stepF P s t = some s2) (hs : ScanOk P s) : ScanOk P s2 := by
  cases t with
  | main =>
    simp only [stepF, mainStep] at h
    split at h <;> (try split at h) <;>
      first
        | exact Option.noConfusion h
        | (injection h with h2; subst h2; intro u hu ns j hpc;
           exact hs u hu ns j hpc)
  | worker i =>
    cases hw : s.workers[i]? with
    | none =>
      simp only [stepF, workerStep, hw] at h
      exact Option.noConfusion h
    | some w =>
      have hwmem : w ∈ s.workers := List.getElem?_mem hw
      simp only [stepF, workerStep, hw] at h
      split at h
      case h_1 heq =>
        split at h
        · exact Option.noConfusion h
        · injection h with h2; subst h2
          intro u hu ns j hpc
          rcases List.mem_or_eq_of_mem_set hu with hmem | rfl
          · exact hs u hmem ns j hpc
          · simp at hpc
      case h_2 heq =>
        split at h
        · injection h with h2; subst h2
          intro u hu ns j hpc
          rcases List.mem_or_eq_of_mem_set hu with hmem | rfl
          · exact hs u hmem ns j hpc
          · simp at hpc
        · injection h with h2; subst h2
          intro u hu ns j hpc
          rcases List.mem_or_eq_of_mem_set hu with hmem | rfl
          · exact hs u hmem ns j hpc
          · simp at hpc
      case h_3 heq =>
        split at h
        · injection h with h2; subst h2
          intro u hu ns j hpc
          rcases List.mem_or_eq_of_mem_set hu with hmem | rfl
          · exact hs u hmem ns j hpc
          · simp at hpc
        · cases htp : s.task_pointer with
          | none => rw [htp] at h; exact Option.noConfusion h
          | some ns0 =>
            rw [htp] at h
            injection h with h2; subst h2
            intro u hu ns j hpc
            rcases List.mem_or_eq_of_mem_set hu with hmem | rfl
            · exact hs u hmem ns j hpc
            · simp only [WorkerPC.Proc.injEq] at hpc
              obtain ⟨he1, he2⟩ := hpc
              subst he1
              subst he2
              exact ⟨Nat.zero_le _, fun k hk => absurd hk (by omega)⟩
      case h_4 ns j heq =>
        split at h
        case isTrue hj =>
          split at h
          case isTrue hhit =>
            injection h with h2; subst h2
            intro u hu ns2 j2 hpc
            rcases List.mem_or_eq_of_mem_set hu with hmem | rfl
            · exact hs u hmem ns2 j2 hpc
            · simp at hpc
          case isFalse hmiss =>
            injection h with h2; subst h2
            intro u hu ns2 j2 hpc
            rcases List.mem_or_eq_of_mem_set hu with hmem | rfl
            · exact hs u hmem ns2 j2 hpc
            · simp only [WorkerPC.Proc.injEq] at hpc
              obtain ⟨he1, he2⟩ := hpc
              subst he1
              subst he2
              obtain ⟨hle, hall⟩ := hs w hwmem ns j heq
              refine ⟨by omega, fun k hk => ?_⟩
              by_cases hkj : k = j
              · subst hkj
                exact Bool.eq_false_iff.mpr hmiss
              · exact hall k (by omega)
        case isFalse hj =>
          injection h with h2; subst h2
          intro u hu ns2 j2 hpc
          rcases List.mem_or_eq_of_mem_set hu with hmem | rfl
          · exact hs u hmem ns2 j2 hpc
          · simp at hpc
      case h_5 heq => exact Option.noConfusion h

theorem step_inv_increase (P : Params) (s : SysState) (t : Tid) (s2 : SysState)
    (i : Nat) (w w2 : WorkerState) (hscan : ScanOk P s)
    (h : stepF P s t = some s2) (hw : s.workers[i]? = some w)
    (hw2 : s2.workers[i]? = some w2)
    (hlt : w.num_inversions < w2.num_inversions) :
    ∃ ns, w.pc = .Proc ns NONCES_PER_TASK ∧
      w2.num_inversions = w.num_inversions + NONCES_PER_TASK ∧
      ∀ j, j < NONCES_PER_TASK → hit P (ns.getD j 0) = false := by
  cases t with
  | main =>
    simp only [stepF, mainStep] at h
    split at h <;> (try split at h) <;>
      first
        | exact Option.noConfusion h
        | (injection h with h2; subst h2;
           have h12 : s.workers[i]? = some w2 := hw2;
           rw [hw] at h12; injection h12 with h13; subst h13; omega)
  | worker i2 =>
    cases hw0 : s.workers[i2]? with
    | none =>
      simp only [stepF, workerStep, hw0] at h
      exact Option.noConfusion h
    | some w0 =>
      have hw0mem : w0 ∈ s.workers := List.getElem?_mem hw0
      simp only [stepF, workerStep, hw0] at h
      by_cases hii : i2 = i
      · subst hii
        rw [hw0] at hw
        injection hw with hww
        subst hww
        have hlen : i2 < s.workers.length := by
          obtain ⟨h1, -⟩ := List.getElem?_eq_some_iff.mp hw0
          exact h1
        split at h
        next heq =>
          split at h
          · exact Option.noConfusion h
          · injection h with h2; subst h2
            rw [List.getElem?_set_self hlen] at hw2
            injection hw2 with h13
            subst h13
            simp at hlt
        next heq =>
          split at h <;>
            (injection h with h2; subst h2;
             rw [List.getElem?_set_self hlen] at hw2;
             injection hw2 with h13; subst h13; simp at hlt)
        next heq =>
          split at h
          · injection h with h2; subst h2
            rw [List.getElem?_set_self hlen] at hw2
            injection hw2 with h13
            subst h13
            simp at hlt
          · cases htp : s.task_pointer with
            | none => rw [htp] at h; exact Option.noConfusion h
            | some ns0 =>
              rw [htp] at h
              injection h with h2; subst h2
              rw [List.getElem?_set_self hlen] at hw2
              injection hw2 with h13
              subst h13
              simp at hlt
        next ns j heq =>
          split at h
          case isTrue hj =>
            split at h <;>
              (injection h with h2; subst h2;
               rw [List.getElem?_set_self hlen] at hw2;
               injection hw2 with h13; subst h13; simp at hlt)
          case isFalse hj =>
            injection h with h2; subst h2
            rw [List.getElem?_set_self hlen] at hw2
            injection hw2 with h13
            subst h13
            obtain ⟨hle, hall⟩ := hscan w0 hw0mem ns j heq
            have hj120 : j = NONCES_PER_TASK := by omega
            subst hj120
            exact ⟨ns, heq, rfl, fun k hk => hall k hk⟩
        next heq => exact Option.noConfusion h
      · split at h <;> (try split at h) <;> (try split at h) <;>
          first
            | exact Option.noConfusion h
            | (injection h with h2; subst h2;
                 rw [List.getElem?_set_ne (by omega : i2 ≠ i)] at hw2;
                 rw [hw] at hw2; injection hw2 with h13; subst h13; omega)

theorem runSched_inv (P : Params) (ts : List Tid) : ∀ s,
    budget s ≤ NONCES_PER_TASK * s.gens → ScanOk P s →
    budget (runSched P s ts) ≤ NONCES_PER_TASK * (runSched P s ts).gens ∧
      ScanOk P (runSched P s ts) := by
  induction ts with
  | nil => intro s hb hs; exact ⟨hb, hs⟩
  | cons t ts ih =>
    intro s hb hs
    rw [runSched]
    cases hstep : stepF P s t with
    | none => exact ih s hb hs
    | some s2 =>
      exact ih s2 (budget_step P s t s2 hstep hb) (scanOk_step P s t s2 hstep hs)

theorem initState_budget (n : Nat) :
    budget (initState n) ≤ NONCES_PER_TASK * (initState n).gens := by
  simp [initState, budget, handCount, slotCount, sumInv, procCount,
    List.map_replicate]

theorem initState_scan (P : Params) (n : Nat) : ScanOk P (initState n) := by
  intro w hw ns j hpc
  simp only [initState] at hw
  have hww := List.eq_of_mem_replicate hw
  subst hww
  simp at hpc

/-- C9: across any run, the sum of the workers' processed counts never
exceeds the total number of candidates generated
(`NONCES_PER_TASK * gens`); and a worker's processed count grows only
by the step that completes a fully scanned batch in which no candidate
matched — in particular the batch containing a winning candidate is
never counted. -/
theorem c9_inversions_accounting (P : Params) (n : Nat) (ts : List Tid) :
    sumInv (runSched P (initState n) ts) ≤
        NONCES_PER_TASK * (runSched P (initState n) ts).gens ∧
      ∀ (t : Tid) (s2 : SysState) (i : Nat) (w w2 : WorkerState),
        stepF P (runSched P (initState n) ts) t = some s2 →
        (runSched P (initState n) ts).workers[i]? = some w →
        s2.workers[i]? = some w2 →
        w.num_inversions < w2.num_inversions →
        ∃ ns, w.pc = .Proc ns NONCES_PER_TASK ∧
          w2.num_inversions = w.num_inversions + NONCES_PER_TASK ∧
          ∀ j, j < NONCES_PER_TASK → hit P (ns.getD j 0) = false := by
  obtain ⟨hb, hs⟩ :=
    runSched_inv P ts (initState n) (initState_budget n) (initState_scan P n)
  constructor
  · calc sumInv (runSched P (initState n) ts) ≤ budget (runSched P (initState n) ts) :=
          Nat.le_add_left _ _
      _ ≤ NONCES_PER_TASK * (runSched P (initState n) ts).gens := hb
  · intro t s2 i w w2 hstep hw hw2 hlt
    exact step_inv_increase P _ t s2 i w w2 hs hstep hw hw2 hlt

set_option maxRecDepth 100000 in
theorem c9_inversions_accounting_witness :
    ∃ ns, c9w.pc = .Proc ns NONCES_PER_TASK ∧
      c9w2.num_inversions = c9w.num_inversions + NONCES_PER_TASK ∧
      ∀ j, j < NONCES_PER_TASK → hit Pmiss (ns.getD j 0) = false :=
  (c9_inversions_accounting Pmiss 1 c9sched).2 (.worker 0) c9after 0 c9w c9w2
    (by decide) (by decide) (by decide) (by decide)
